import Mathlib

/-!
Verification of the DQN agent core (`a3/dqn_agent.py`).

The agent's numerical core is embedded shallowly:

* tensors of floating-point values become lists of rationals (idealized
  exact arithmetic), batches of observations become lists;
* the one place where IEEE special values are decisive — the torch
  division `sample_count / exp_anneal_samples` in `_get_exp_prob`, whose
  divisor may be `np.inf` or `0` — is modelled by an extended value type
  `FVal` with `inf`, `negInf` and `nan`, following the torch semantics
  of true division and `clamp` (both propagate `nan`; `clamp` maps the
  infinities to the interval bounds).  A `nan` output surfaces as `none`;
* the two networks are functions from observations to per-action Q-value
  lists, carried in a `DQNState`;
* randomness in `_sample_action` (`torch.rand(1)` and `torch.randint`)
  is made explicit: the single uniform coin `u` and the per-row integer
  draws `rnd` are inputs of the embedded function;
* parameter containers (`model.parameters()`) are lists of flat tensors
  (`List ℚ`); `Tensor.copy_` fails on a size mismatch, so the sync
  routine returns `Except`.
-/

namespace DQN

/-- Extended value: a rational, `+inf`, `-inf`, or `nan`, the carrier for
the torch scalar arithmetic in `_get_exp_prob`. -/
inductive FVal where
  | nan : FVal
  | inf : FVal
  | negInf : FVal
  | fin : ℚ → FVal
deriving DecidableEq, Repr

/-- Torch true division of a finite value `x` by an extended value:
`x / nan = nan`; `x / ±inf = 0` for finite `x`;
`x / 0` is `nan` when `x = 0` and a signed infinity otherwise;
otherwise exact rational division. -/
def fdiv (x : ℚ) : FVal → FVal
  | .nan => .nan
  | .inf => .fin 0
  | .negInf => .fin 0
  | .fin d =>
    if d = 0 then
      (if x = 0 then .nan else if 0 < x then .inf else .negInf)
    else .fin (x / d)

/-- Torch clamp `torch.clamp(v, min=0, max=1)`: `nan` propagates (surfacing as `none`),
the infinities clamp to the bounds, a finite value is clamped into `[0,1]`. -/
def clamp01 : FVal → Option ℚ
  | .nan => none
  | .inf => some 1
  | .negInf => some 0
  | .fin x => some (min 1 (max 0 x))

/-- Embedding of `_get_exp_prob`: `l = clamp(sample_count / anneal_samples, 0, 1)`,
`prob = (1 - l) * exp_prob_beg + l * exp_prob_end`.  The anneal horizon is
an `FVal` because the config default is `np.inf`.  A `nan` result of the
division propagates through `clamp` and the affine formula to a `none`. -/
def getExpProb (sampleCount : ℕ) (annealSamples : FVal) (probBeg probEnd : ℚ) :
    Option ℚ :=
  (clamp01 (fdiv (sampleCount : ℚ) annealSamples)).map
    (fun l => (1 - l) * probBeg + l * probEnd)

/-- Row maximum `torch.max(v, dim=-1)` over one row, i.e. the maximum of a Q-value list
(rows are nonempty in every use; `[]` is given the junk value `0`). -/
def listMax : List ℚ → ℚ
  | [] => 0
  | x :: xs => xs.foldl max x

/-- Row argmax `torch.argmax` over one row: the index of the first occurrence of the
row maximum. -/
def argmaxFirst (l : List ℚ) : ℕ :=
  l.findIdx (fun x => x = listMax l)

/-- The agent's two networks and the discount: `self._model.eval_q`,
`self._tar_model.eval_q` and `self._discount`. -/
structure DQNState (α : Type) where
  model : α → List ℚ
  tarModel : α → List ℚ
  discount : ℚ

/-- Embedding of `_compute_tar_vals`: per aligned sample,
`r + discount * (1 - done) * max_a Q_tar(next_obs, a)`, querying the
target model only. -/
def computeTarVals {α : Type} (s : DQNState α) :
    List ℚ → List α → List ℚ → List ℚ
  | r :: rs, o :: os, d :: ds =>
    (r + s.discount * (1 - d) * listMax (s.tarModel o)) :: computeTarVals s rs os ds
  | _, _, _ => []

/-- Mean of a vector, `torch.mean`. -/
def mean (l : List ℚ) : ℚ := l.sum / l.length

/-- Embedding of `_compute_q_loss`: query the online model on each observation, gather
the Q-value at the taken action's index, and take the mean squared
difference against the target values. -/
def computeQLoss {α : Type} (s : DQNState α)
    (normObs : List α) (a : List ℕ) (tarVals : List ℚ) : ℚ :=
  let preds := normObs.map s.model
  let sel := List.zipWith (fun row ai => row.getD ai 0) preds a
  mean (List.zipWith (fun p t => (p - t) ^ 2) sel tarVals)

/-- Action count `qs.shape[1]`: the common row width of a rectangular Q-value batch. -/
def numActions (qs : List (List ℚ)) : ℕ := (qs.headD []).length

/-- Embedding of `_sample_action`: one exploration coin `u` (the value of
`torch.rand(1).item()`) is compared against `exp_prob` once per call;
if it explores, every row gets an integer draw (`torch.randint`, modelled
by the draws `rnd i` reduced into range), otherwise every row gets its
greedy argmax. -/
def sampleAction (qs : List (List ℚ)) (expProb u : ℚ) (rnd : ℕ → ℕ) : List ℕ :=
  if u < expProb then
    (List.range qs.length).map (fun i => rnd i % numActions qs)
  else
    qs.map argmaxFirst

/-- The agent mode; `other` stands for any value of the base framework's
`AgentMode` that is neither `TRAIN` nor `TEST`. -/
inductive AgentMode where
  | train : AgentMode
  | test : AgentMode
  | other : AgentMode
deriving DecidableEq, Repr

/-- Embedding of `_decide_action` after normalization and Q evaluation: TRAIN samples
epsilon-greedily, TEST takes the row-wise argmax, anything else hits the
failing assertion. -/
def decideAction (mode : AgentMode) (qs : List (List ℚ)) (expProb u : ℚ)
    (rnd : ℕ → ℕ) : Except String (List ℕ) :=
  match mode with
  | .train => .ok (sampleAction qs expProb u rnd)
  | .test => .ok (qs.map argmaxFirst)
  | .other => .error "Unsupported agent mode"

/-- Embedding of `target_param.data.copy_(param.data)`: a value copy.
`Tensor.copy_` accepts any source broadcastable to the destination; for
the flat (1-D) tensors of the embedding that means a source of the same
size, or a singleton source, which fills every destination slot; any
other size mismatch raises. -/
def copyData (dest src : List ℚ) : Except String (List ℚ) :=
  if src.length = dest.length then .ok src
  else if src.length = 1 then .ok (List.replicate dest.length (src.headD 0))
  else .error "copy size mismatch"

/-- Embedding of `_sync_tar_model`: loop over `zip(tar_params, params)` copying each
online tensor into the aligned target tensor.  `zip` stops at the shorter
list, so surplus target parameters stay unchanged and surplus online
parameters are ignored. -/
def syncTarModel : List (List ℚ) → List (List ℚ) → Except String (List (List ℚ))
  | [], _ => .ok []
  | t :: ts, [] => .ok (t :: ts)
  | t :: ts, m :: ms =>
    match copyData t m with
    | .error e => .error e
    | .ok c =>
      match syncTarModel ts ms with
      | .error e => .error e
      | .ok rest => .ok (c :: rest)

/-- The two parameter containers of the agent. -/
structure Params where
  online : List (List ℚ)
  target : List (List ℚ)

/-- A sync step on the agent's parameter state. -/
def syncStep (p : Params) : Except String Params :=
  (syncTarModel p.target p.online).map (fun t => { p with target := t })

/-- An update that replaces the online parameters only (a gradient step
touches nothing else; the target parameters have `requires_grad = False`). -/
def onlineUpdate (p : Params) (newOnline : List (List ℚ)) : Params :=
  { p with online := newOnline }

/-- Ceiling division, `int(np.ceil(a / p))` for naturals. -/
def ceilDiv (a p : ℕ) : ℕ := (a + p - 1) / p

/-- The values `_load_params` derives from the configuration. -/
structure LoadedParams where
  expBufferLength : ℕ
  batchSize : ℕ
  initSamples : ℕ

/-- Embedding of `_load_params`: buffer length, batch size and initial sample count are
ceil-divided by the process count; the buffer length is then raised to at
least `self._steps_per_iter`. -/
def loadParams (bufferSize batchSize initSamples numProcs stepsPerIter : ℕ) :
    LoadedParams :=
  { expBufferLength := max (ceilDiv bufferSize numProcs) stepsPerIter
    batchSize := ceilDiv batchSize numProcs
    initSamples := ceilDiv initSamples numProcs }

/-! ### Helper lemmas about `listMax` and `argmaxFirst` -/

theorem le_foldl_max (l : List ℚ) (a : ℚ) : a ≤ l.foldl max a := by
  induction l generalizing a with
  | nil => exact le_refl a
  | cons x xs ih => exact le_trans (le_max_left a x) (ih (max a x))

theorem mem_le_foldl_max {l : List ℚ} {x : ℚ} (hx : x ∈ l) (a : ℚ) :
    x ≤ l.foldl max a := by
  induction l generalizing a with
  | nil => cases hx
  | cons y ys ih =>
    rcases List.mem_cons.mp hx with h | h
    · subst h
      exact le_trans (le_max_right a x) (le_foldl_max ys (max a x))
    · exact ih h (max a y)

theorem foldl_max_mem (l : List ℚ) (a : ℚ) :
    l.foldl max a = a ∨ l.foldl max a ∈ l := by
  induction l generalizing a with
  | nil => exact Or.inl rfl
  | cons x xs ih =>
    rcases ih (max a x) with h | h
    · rcases max_choice a x with he | he
      · exact Or.inl (by rw [List.foldl_cons, h, he])
      · exact Or.inr (by rw [List.foldl_cons, h, he]; exact List.mem_cons_self x xs)
    · exact Or.inr (List.mem_cons_of_mem x h)

theorem listMax_mem {l : List ℚ} (h : l ≠ []) : listMax l ∈ l := by
  match l with
  | [] => exact absurd rfl h
  | x :: xs =>
    rcases foldl_max_mem xs x with he | he
    · rw [listMax, he]; exact List.mem_cons_self x xs
    · rw [listMax]; exact List.mem_cons_of_mem x he

theorem le_listMax {l : List ℚ} {x : ℚ} (hx : x ∈ l) : x ≤ listMax l := by
  match l with
  | [] => cases hx
  | y :: ys =>
    rcases List.mem_cons.mp hx with h | h
    · subst h; exact le_foldl_max ys x
    · exact mem_le_foldl_max h y

theorem argmaxFirst_lt_length {l : List ℚ} (h : l ≠ []) :
    argmaxFirst l < l.length :=
  List.findIdx_lt_length_of_exists ⟨listMax l, listMax_mem h, by simp⟩

theorem argmaxFirst_getD {l : List ℚ} (h : l ≠ []) :
    l.getD (argmaxFirst l) 0 = listMax l := by
  have hlt : l.findIdx (fun x => decide (x = listMax l)) < l.length := by
    have hx := argmaxFirst_lt_length h
    unfold argmaxFirst at hx
    exact hx
  have hp := List.findIdx_getElem (w := hlt)
  unfold argmaxFirst
  rw [List.getD_eq_getElem l 0 hlt]
  exact of_decide_eq_true hp

theorem argmaxFirst_first {l : List ℚ} {j : ℕ} (hj : j < argmaxFirst l) :
    l.getD j 0 ≠ listMax l := by
  unfold argmaxFirst at hj
  have hlen : j < l.length :=
    Nat.lt_of_lt_of_le hj (List.findIdx_le_length (fun x => decide (x = listMax l)))
  have hp := List.not_of_lt_findIdx hj
  rw [List.getD_eq_getElem l 0 hlen]
  intro he
  rw [decide_eq_false_iff_not] at hp
  exact hp he

/-! ### Helper lemmas about the exploration schedule -/

theorem getExpProb_fin_eq (n N : ℕ) (hN : 0 < N) (p0 p1 : ℚ) :
    getExpProb n (.fin (N : ℚ)) p0 p1 =
      some ((1 - min 1 ((n : ℚ) / N)) * p0 + min 1 ((n : ℚ) / N) * p1) := by
  have hN0 : ((N : ℚ)) ≠ 0 := Nat.cast_ne_zero.mpr hN.ne'
  have hnn : (0 : ℚ) ≤ (n : ℚ) / N := div_nonneg (Nat.cast_nonneg n) (Nat.cast_nonneg N)
  simp [getExpProb, fdiv, clamp01, hN0, max_eq_right hnn]

theorem getExpProb_fin_getD (n N : ℕ) (hN : 0 < N) (p0 p1 : ℚ) :
    (getExpProb n (.fin (N : ℚ)) p0 p1).getD 0 =
      (1 - min 1 ((n : ℚ) / N)) * p0 + min 1 ((n : ℚ) / N) * p1 := by
  rw [getExpProb_fin_eq n N hN p0 p1, Option.getD_some]

theorem min_one_div_le_one (x : ℚ) : min 1 x ≤ 1 := min_le_left 1 x

theorem min_one_div_nonneg {x : ℚ} (hx : 0 ≤ x) : 0 ≤ min 1 x :=
  le_min (by norm_num) hx

/-- Claim C3: on a finite positive anneal horizon `N`, the exploration
probability is `(1 - t) * p0 + t * p1` with `t = clamp(n / N, 0, 1)`: it
is affine in `n` on `[0, N]`, equals `p0` at `n = 0` and `p1` at `n = N`,
is monotonic in `n` (in the direction given by the sign of `p1 - p0`), and
always lies in the closed interval between `p0` and `p1`. -/
theorem exp_prob_affine (N : ℕ) (p0 p1 : ℚ) (hN : 0 < N) :
    (∀ n : ℕ, n ≤ N →
      getExpProb n (.fin (N : ℚ)) p0 p1 =
        some ((1 - (n : ℚ) / N) * p0 + ((n : ℚ) / N) * p1)) ∧
    getExpProb 0 (.fin (N : ℚ)) p0 p1 = some p0 ∧
    getExpProb N (.fin (N : ℚ)) p0 p1 = some p1 ∧
    (∀ n : ℕ, n ≤ N →
      (getExpProb n (.fin (N : ℚ)) p0 p1).getD 0 = p0 + (n : ℚ) * ((p1 - p0) / N)) ∧
    (∀ n m : ℕ, n ≤ m →
      (p0 ≤ p1 → (getExpProb n (.fin (N : ℚ)) p0 p1).getD 0 ≤
        (getExpProb m (.fin (N : ℚ)) p0 p1).getD 0) ∧
      (p1 ≤ p0 → (getExpProb m (.fin (N : ℚ)) p0 p1).getD 0 ≤
        (getExpProb n (.fin (N : ℚ)) p0 p1).getD 0)) ∧
    (∀ n : ℕ, min p0 p1 ≤ (getExpProb n (.fin (N : ℚ)) p0 p1).getD 0 ∧
      (getExpProb n (.fin (N : ℚ)) p0 p1).getD 0 ≤ max p0 p1) := by
  have hN0 : ((N : ℚ)) ≠ 0 := Nat.cast_ne_zero.mpr hN.ne'
  have hNpos : (0 : ℚ) < (N : ℚ) := by exact_mod_cast hN
  have hfrac : ∀ n : ℕ, n ≤ N → min 1 ((n : ℚ) / N) = (n : ℚ) / N := by
    intro n hn
    exact min_eq_right (by
      rw [div_le_one hNpos]
      exact_mod_cast hn)
  refine ⟨?_, ?_, ?_, ?_, ?_, ?_⟩
  · intro n hn
    rw [getExpProb_fin_eq n N hN p0 p1, hfrac n hn]
  · rw [getExpProb_fin_eq 0 N hN p0 p1, hfrac 0 (Nat.zero_le N)]
    norm_num
  · rw [getExpProb_fin_eq N N hN p0 p1, hfrac N (le_refl N), div_self hN0]
    norm_num
  · intro n hn
    rw [getExpProb_fin_getD n N hN p0 p1, hfrac n hn]
    field_simp
    ring
  · intro n m hnm
    rw [getExpProb_fin_getD n N hN p0 p1, getExpProb_fin_getD m N hN p0 p1]
    have hle : min 1 ((n : ℚ) / N) ≤ min 1 ((m : ℚ) / N) := by
      refine min_le_min (le_refl 1) ?_
      exact div_le_div_of_nonneg_right (by exact_mod_cast hnm) hNpos.le
    constructor
    · intro hp
      nlinarith [hle, hp]
    · intro hp
      nlinarith [hle, hp]
  · intro n
    rw [getExpProb_fin_getD n N hN p0 p1]
    have h0 : (0 : ℚ) ≤ min 1 ((n : ℚ) / N) :=
      min_one_div_nonneg (div_nonneg (Nat.cast_nonneg n) (Nat.cast_nonneg N))
    have h1 : min 1 ((n : ℚ) / N) ≤ 1 := min_le_left 1 _
    constructor
    · nlinarith [min_le_left p0 p1, min_le_right p0 p1]
    · nlinarith [le_max_left p0 p1, le_max_right p0 p1]

/-- Witness for C3 at `N = 2`, `n = 1`, `p0 = 1`, `p1 = 0`. -/
theorem exp_prob_affine_witness :
    getExpProb 1 (.fin ((2 : ℕ) : ℚ)) 1 0 =
      some ((1 - ((1 : ℕ) : ℚ) / ((2 : ℕ) : ℚ)) * 1 + (((1 : ℕ) : ℚ) / ((2 : ℕ) : ℚ)) * 0) :=
  (exp_prob_affine 2 1 0 (by decide)).1 1 (by decide)

/-- Counterexample for claim C6: with a zero anneal horizon and sample
count `0`, the torch division is `0 / 0 = nan`, which propagates through
`clamp` and the affine formula, so the exploration probability is `nan`
(`none` in the embedding), not the final probability `p1`. -/
theorem exp_prob_zero_horizon_cex :
    getExpProb 0 (.fin 0) 1 (1 / 4) = none ∧
    getExpProb 0 (.fin 0) 1 (1 / 4) ≠ some (1 / 4) := by
  constructor
  · decide
  · decide

/-- Claim C6 (amended): the schedule never raises on division: an
unset/infinite horizon gives `epsilon = p0` for every finite sample count,
and a zero horizon gives `epsilon = p1` for every sample count `n ≥ 1`;
at `n = 0` with zero horizon the division is `0 / 0`, which yields `nan`
(`none`), not `p1`. -/
theorem exp_prob_horizon_amended (p0 p1 : ℚ) :
    (∀ n : ℕ, getExpProb n .inf p0 p1 = some p0) ∧
    (∀ n : ℕ, 0 < n → getExpProb n (.fin 0) p0 p1 = some p1) ∧
    getExpProb 0 (.fin 0) p0 p1 = none := by
  refine ⟨?_, ?_, ?_⟩
  · intro n
    simp [getExpProb, fdiv, clamp01]
  · intro n hn
    have hx : ((n : ℚ)) ≠ 0 := Nat.cast_ne_zero.mpr hn.ne'
    have hpos : (0 : ℚ) < (n : ℚ) := by exact_mod_cast hn
    simp [getExpProb, fdiv, clamp01, hx, hpos]
  · simp [getExpProb, fdiv, clamp01]

/-- Witness for the amended C6 at `n = 1`, `p0 = 1`, `p1 = 1/4`. -/
theorem exp_prob_horizon_amended_witness :
    getExpProb 1 (.fin 0) 1 (1 / 4) = some (1 / 4) :=
  (exp_prob_horizon_amended 1 (1 / 4)).2.1 1 (by decide)

/-! ### Helper lemmas about the Bellman target -/

theorem computeTarVals_indep_online {α : Type} (s s' : DQNState α)
    (r : List ℚ) (obs : List α) (done : List ℚ)
    (ht : s.tarModel = s'.tarModel) (hd : s.discount = s'.discount) :
    computeTarVals s r obs done = computeTarVals s' r obs done := by
  induction r generalizing obs done with
  | nil => cases obs <;> cases done <;> rfl
  | cons rr rs ih =>
    cases obs with
    | nil => cases done <;> rfl
    | cons o os =>
      cases done with
      | nil => rfl
      | cons d ds =>
        simp only [computeTarVals, ht, hd]
        rw [ih os ds]

theorem computeTarVals_getD {α : Type} (s : DQNState α) (r : List ℚ)
    (obs : List α) (done : List ℚ) (i : ℕ) (o₀ : α)
    (hr : i < r.length) (ho : i < obs.length) (hd : i < done.length) :
    (computeTarVals s r obs done).getD i 0 =
      r.getD i 0 + s.discount * (1 - done.getD i 0) *
        listMax (s.tarModel (obs.getD i o₀)) := by
  induction r generalizing obs done i with
  | nil => exact absurd hr (by simp)
  | cons rr rs ih =>
    cases obs with
    | nil => exact absurd ho (by simp)
    | cons o os =>
      cases done with
      | nil => exact absurd hd (by simp)
      | cons d ds =>
        cases i with
        | zero => simp [computeTarVals]
        | succ i =>
          simp only [computeTarVals, List.getD_cons_succ]
          exact ih os ds i (Nat.lt_of_succ_lt_succ hr)
            (Nat.lt_of_succ_lt_succ ho) (Nat.lt_of_succ_lt_succ hd)

theorem computeTarVals_done {α : Type} (s : DQNState α) (r : List ℚ)
    (obs : List α) (hlen : r.length = obs.length) :
    computeTarVals s r obs (List.replicate r.length 1) = r := by
  induction r generalizing obs with
  | nil => cases obs <;> rfl
  | cons rr rs ih =>
    cases obs with
    | nil => exact absurd hlen (by simp)
    | cons o os =>
      simp only [List.length_cons, List.replicate_succ, computeTarVals]
      rw [ih os (by simpa using hlen)]
      have harith : rr + s.discount * (1 - 1) * listMax (s.tarModel o) = rr := by ring
      rw [harith]

/-- Claim C1: `_compute_tar_vals` returns, per sample,
`r + gamma * (1 - done) * max_a Q_target(next_obs, a)`; the maximum is
taken over the target network (the result is independent of the online
network); a terminal sample's target equals its reward independently of
`next_obs`; the spec's concrete example (`Q_target = [1,5,3]`,
`gamma = 0.9`, `r = 2`, non-terminal) yields `6.5`. -/
theorem tar_vals_bellman :
    (∀ (α : Type) (s s' : DQNState α) (r : List ℚ) (obs : List α) (done : List ℚ),
      s.tarModel = s'.tarModel → s.discount = s'.discount →
      computeTarVals s r obs done = computeTarVals s' r obs done) ∧
    (∀ (α : Type) (s : DQNState α) (r : List ℚ) (obs : List α) (done : List ℚ)
      (i : ℕ) (o₀ : α), i < r.length → i < obs.length → i < done.length →
      (computeTarVals s r obs done).getD i 0 =
        r.getD i 0 + s.discount * (1 - done.getD i 0) *
          listMax (s.tarModel (obs.getD i o₀))) ∧
    (∀ (α : Type) (s : DQNState α) (r : List ℚ) (obs : List α),
      r.length = obs.length →
      computeTarVals s r obs (List.replicate r.length 1) = r) ∧
    computeTarVals (⟨fun _ => [0], fun _ => [1, 5, 3], 9 / 10⟩ : DQNState Unit)
      [2] [()] [0] = [13 / 2] := by
  refine ⟨?_, ?_, ?_, ?_⟩
  · intro α s s' r obs done ht hd
    exact computeTarVals_indep_online s s' r obs done ht hd
  · intro α s r obs done i o₀ hr ho hd
    exact computeTarVals_getD s r obs done i o₀ hr ho hd
  · intro α s r obs hlen
    exact computeTarVals_done s r obs hlen
  · norm_num [computeTarVals, listMax, max_def]

/-- Witness for C1: the pointwise Bellman formula instantiated at the
spec's concrete example. -/
theorem tar_vals_bellman_witness :
    (computeTarVals (⟨fun _ => [0], fun _ => [1, 5, 3], 9 / 10⟩ : DQNState Unit)
        [2] [()] [0]).getD 0 0 =
      (2 : ℚ) + (9 / 10) * (1 - 0) * listMax [1, 5, 3] := by
  have h := tar_vals_bellman.2.1 Unit
    (⟨fun _ => [0], fun _ => [1, 5, 3], 9 / 10⟩ : DQNState Unit)
    [2] [()] [0] 0 () (by decide) (by decide) (by decide)
  simpa using h

/-! ### Helper lemmas about the loss computation -/

theorem qLoss_zip_eq_range {α : Type} (s : DQNState α) (obs : List α)
    (a : List ℕ) (tv : List ℚ) (o₀ : α)
    (ha : a.length = obs.length) (ht : tv.length = obs.length) :
    List.zipWith (fun p t => (p - t) ^ 2)
        (List.zipWith (fun row ai => row.getD ai 0) (obs.map s.model) a) tv =
      (List.range obs.length).map (fun i =>
        ((s.model (obs.getD i o₀)).getD (a.getD i 0) 0 - tv.getD i 0) ^ 2) := by
  induction obs generalizing a tv with
  | nil =>
    have ha0 : a = [] := List.eq_nil_of_length_eq_zero ha
    subst ha0
    rfl
  | cons o os ih =>
    cases a with
    | nil => exact absurd ha (by simp)
    | cons ai as =>
      cases tv with
      | nil => exact absurd ht (by simp)
      | cons t ts =>
        simp only [List.map_cons, List.zipWith_cons_cons, List.length_cons,
          List.range_succ_eq_map, List.map_map]
        rw [ih as ts (by simpa using ha) (by simpa using ht)]
        simp [Function.comp]

/-- Claim C2: `_compute_q_loss` gathers, per row, the online network's
Q-value at the taken action's index and returns the mean squared
difference against the targets; the spec's concrete example
(`a = [0,1]`, `preds = [[1,2],[3,4]]`, `tar_vals = [1,5]`) gives
selected predictions `[1,4]` and loss `0.5`. -/
theorem q_loss_mse :
    (∀ (α : Type) (s : DQNState α) (obs : List α) (a : List ℕ) (tv : List ℚ)
      (o₀ : α), a.length = obs.length → tv.length = obs.length →
      computeQLoss s obs a tv =
        ((List.range obs.length).map (fun i =>
          ((s.model (obs.getD i o₀)).getD (a.getD i 0) 0 - tv.getD i 0) ^ 2)).sum
          / obs.length) ∧
    computeQLoss (⟨fun i => if i = 0 then [1, 2] else [3, 4], fun _ => [], 0⟩ :
        DQNState ℕ) [0, 1] [0, 1] [1, 5] = 1 / 2 := by
  constructor
  · intro α s obs a tv o₀ ha ht
    rw [computeQLoss, mean, qLoss_zip_eq_range s obs a tv o₀ ha ht]
    rw [List.length_map, List.length_range]
  · norm_num [computeQLoss, mean]

/-- Witness for C2: the gather-and-mean characterization instantiated at
the spec's concrete example evaluates to `0.5`. -/
theorem q_loss_mse_witness :
    computeQLoss (⟨fun i => if i = 0 then [1, 2] else [3, 4], fun _ => [], 0⟩ :
        DQNState ℕ) [0, 1] [0, 1] [1, 5] =
      ((List.range 2).map (fun i =>
        (((if ([0, 1].getD i 0 : ℕ) = 0 then [(1 : ℚ), 2] else [3, 4]).getD
          (([0, 1] : List ℕ).getD i 0) 0) - ([1, 5] : List ℚ).getD i 0) ^ 2)).sum
        / 2 := by
  have h := q_loss_mse.1 ℕ
    (⟨fun i => if i = 0 then [1, 2] else [3, 4], fun _ => [], 0⟩ : DQNState ℕ)
    [0, 1] [0, 1] [1, 5] 0 (by decide) (by decide)
  simpa using h

/-! ### Helper lemmas about action sampling -/

theorem map_range_getD (t : List ℕ) :
    (List.range t.length).map (fun i => t.getD i 0) = t := by
  induction t with
  | nil => rfl
  | cons x xs ih =>
    rw [List.length_cons, List.range_succ_eq_map, List.map_cons, List.map_map]
    simp only [Function.comp, List.getD_cons_succ, List.getD_cons_zero]
    exact congrArg (x :: ·) ih

/-- Claim C4: one exploration coin per call: every call's output is
either wholly greedy or wholly the per-row random draws (no mixing);
when the coin explores, any in-range action vector is reachable (each
row independently ranges over the full action set); when it does not,
every row is greedy. -/
theorem sample_action_single_coin (qs : List (List ℚ)) (eps u : ℚ)
    (rnd : ℕ → ℕ) :
    (sampleAction qs eps u rnd = qs.map argmaxFirst ∨
      sampleAction qs eps u rnd =
        (List.range qs.length).map (fun i => rnd i % numActions qs)) ∧
    (u < eps →
      ∀ t : List ℕ, t.length = qs.length →
        (∀ i, i < t.length → t.getD i 0 < numActions qs) →
        ∃ g : ℕ → ℕ, sampleAction qs eps u g = t) ∧
    (¬ u < eps → sampleAction qs eps u rnd = qs.map argmaxFirst) := by
  refine ⟨?_, ?_, ?_⟩
  · by_cases h : u < eps
    · exact Or.inr (by rw [sampleAction, if_pos h])
    · exact Or.inl (by rw [sampleAction, if_neg h])
  · intro h t hlen hrange
    refine ⟨fun i => t.getD i 0, ?_⟩
    rw [sampleAction, if_pos h, ← hlen]
    rw [List.map_congr_left (fun i hi => ?_)]
    · exact map_range_getD t
    · exact Nat.mod_eq_of_lt (hrange i (List.mem_range.mp hi))
  · intro h
    rw [sampleAction, if_neg h]

/-- Witness for C4: with the coin exploring, the sampler can produce the
action vector `[2, 0]` on a 2-row, 3-action batch. -/
theorem sample_action_single_coin_witness :
    ∃ g : ℕ → ℕ, sampleAction [[1, 5, 3], [2, 0, 9]] 1 0 g = [2, 0] :=
  (sample_action_single_coin [[1, 5, 3], [2, 0, 9]] 1 0 id).2.1
    (by norm_num) [2, 0] (by decide)
    (by
      intro i hi
      have h2 : i < 2 := by simpa using hi
      interval_cases i <;> decide)

/-- Claim C7: in TEST mode the decision is always the row-wise argmax and
is independent of the exploration inputs (no coin flip); in TRAIN mode
with `epsilon = 0` the decision is also the row-wise argmax; the argmax
picks the first occurrence of the row maximum. -/
theorem decide_action_greedy :
    (∀ (qs : List (List ℚ)) (eps u eps' u' : ℚ) (rnd rnd' : ℕ → ℕ),
      decideAction .test qs eps u rnd = .ok (qs.map argmaxFirst) ∧
      decideAction .test qs eps u rnd = decideAction .test qs eps' u' rnd') ∧
    (∀ (qs : List (List ℚ)) (u : ℚ) (rnd : ℕ → ℕ), 0 ≤ u →
      decideAction .train qs 0 u rnd = .ok (qs.map argmaxFirst)) ∧
    (∀ row : List ℚ, row ≠ [] →
      argmaxFirst row < row.length ∧
      row.getD (argmaxFirst row) 0 = listMax row ∧
      ∀ j, j < argmaxFirst row → row.getD j 0 ≠ listMax row) := by
  refine ⟨?_, ?_, ?_⟩
  · intro qs eps u eps' u' rnd rnd'
    exact ⟨rfl, rfl⟩
  · intro qs u rnd hu
    rw [decideAction, sampleAction, if_neg (not_lt.mpr hu)]
  · intro row hrow
    exact ⟨argmaxFirst_lt_length hrow, argmaxFirst_getD hrow,
      fun j hj => argmaxFirst_first hj⟩

/-- Witness for C7: greedy TRAIN decision at `epsilon = 0` on a concrete
batch, and the first-occurrence property on a row with a tied maximum. -/
theorem decide_action_greedy_witness :
    decideAction .train [[3, 7, 7, 1]] 0 (1 / 2) (fun _ => 0) =
      .ok ([[3, 7, 7, 1]].map argmaxFirst) :=
  decide_action_greedy.2.1 [[3, 7, 7, 1]] (1 / 2) (fun _ => 0) (by norm_num)

/-- Claim C10: `_sample_action` returns exactly one action per batch row,
and on a rectangular batch with at least one action every returned index
is a valid action index, in both branches. -/
theorem sample_action_valid_index (qs : List (List ℚ)) (eps u : ℚ)
    (rnd : ℕ → ℕ) (hrect : ∀ row ∈ qs, row.length = numActions qs)
    (hpos : 0 < numActions qs) :
    (sampleAction qs eps u rnd).length = qs.length ∧
    ∀ i, i < qs.length → (sampleAction qs eps u rnd).getD i 0 < numActions qs := by
  rw [sampleAction]
  by_cases h : u < eps
  · rw [if_pos h]
    constructor
    · rw [List.length_map, List.length_range]
    · intro i hi
      have hlen : i < ((List.range qs.length).map
          (fun i => rnd i % numActions qs)).length := by
        rwa [List.length_map, List.length_range]
      rw [List.getD_eq_getElem _ _ hlen, List.getElem_map, List.getElem_range]
      exact Nat.mod_lt _ hpos
  · rw [if_neg h]
    constructor
    · rw [List.length_map]
    · intro i hi
      have hlen : i < (qs.map argmaxFirst).length := by rwa [List.length_map]
      have hqi : i < qs.length := hi
      rw [List.getD_eq_getElem _ _ hlen, List.getElem_map]
      have hmem : qs.get ⟨i, hqi⟩ ∈ qs := List.get_mem qs i hqi
      have hrowlen : (qs.get ⟨i, hqi⟩).length = numActions qs := hrect _ hmem
      have hne : qs.get ⟨i, hqi⟩ ≠ [] := by
        intro hnil
        rw [hnil] at hrowlen
        simp at hrowlen
        omega
      have := argmaxFirst_lt_length hne
      rw [hrowlen] at this
      exact this

/-- Witness for C10 on a 2-row, 3-action batch in the greedy branch. -/
theorem sample_action_valid_index_witness :
    (sampleAction [[1, 5, 3], [2, 0, 9]] 0 0 id).length =
      ([[1, 5, 3], [2, 0, 9]] : List (List ℚ)).length :=
  (sample_action_valid_index [[1, 5, 3], [2, 0, 9]] 0 0 id
    (by decide) (by decide)).1

/-! ### Helper lemmas about target-network synchronization -/

theorem syncTarModel_ok_of_forall₂ {tar model : List (List ℚ)}
    (h : List.Forall₂ (fun t m => t.length = m.length) tar model) :
    syncTarModel tar model = .ok model := by
  induction h with
  | nil => rfl
  | @cons t m ts ms hlen htail ih =>
    simp [syncTarModel, copyData, hlen, ih]

theorem syncTarModel_ok_of_aligned (tar : List (List ℚ)) :
    ∀ model : List (List ℚ),
      (∀ (i : ℕ) (t m : List ℚ), tar[i]? = some t → model[i]? = some m →
        t.length = m.length) →
      syncTarModel tar model =
        .ok (model.take tar.length ++ tar.drop model.length) := by
  induction tar with
  | nil =>
    intro model h
    simp [syncTarModel]
  | cons t ts ih =>
    intro model h
    cases model with
    | nil => simp [syncTarModel]
    | cons m ms =>
      have h0 : t.length = m.length := h 0 t m (by simp) (by simp)
      have htail : ∀ (i : ℕ) (t' m' : List ℚ), ts[i]? = some t' →
          ms[i]? = some m' → t'.length = m'.length := by
        intro i t' m' h1 h2
        exact h (i + 1) t' m' (by simpa using h1) (by simpa using h2)
      simp [syncTarModel, copyData, h0, ih ms htail]

theorem syncTarModel_error_of_mismatch :
    ∀ (i : ℕ) (tar model : List (List ℚ)) (t m : List ℚ),
      tar[i]? = some t → model[i]? = some m → t.length ≠ m.length →
      m.length ≠ 1 →
      ∃ msg, syncTarModel tar model = .error msg := by
  intro i
  induction i with
  | zero =>
    intro tar model t m ht hm hne hone
    cases tar with
    | nil => simp at ht
    | cons t0 ts =>
      cases model with
      | nil => simp at hm
      | cons m0 ms =>
        simp at ht hm
        subst ht
        subst hm
        refine ⟨"copy size mismatch", ?_⟩
        simp [syncTarModel, copyData, Ne.symm hne, hone]
  | succ i ih =>
    intro tar model t m ht hm hne hone
    cases tar with
    | nil => simp at ht
    | cons t0 ts =>
      cases model with
      | nil => simp at hm
      | cons m0 ms =>
        simp at ht hm
        obtain ⟨msg, hmsg⟩ := ih ts ms t m ht hm hne hone
        cases hc : copyData t0 m0 with
        | error e => exact ⟨e, by simp [syncTarModel, hc]⟩
        | ok c => exact ⟨msg, by simp [syncTarModel, hc, hmsg]⟩

theorem syncTarModel_ok_of_broadcastable (tar : List (List ℚ)) :
    ∀ model : List (List ℚ),
      (∀ (i : ℕ) (t m : List ℚ), tar[i]? = some t → model[i]? = some m →
        t.length = m.length ∨ m.length = 1) →
      ∃ out, syncTarModel tar model = .ok out := by
  induction tar with
  | nil =>
    intro model h
    exact ⟨[], rfl⟩
  | cons t ts ih =>
    intro model h
    cases model with
    | nil => exact ⟨t :: ts, rfl⟩
    | cons m ms =>
      have h0 : t.length = m.length ∨ m.length = 1 := h 0 t m (by simp) (by simp)
      have htail : ∀ (i : ℕ) (t' m' : List ℚ), ts[i]? = some t' →
          ms[i]? = some m' → t'.length = m'.length ∨ m'.length = 1 := by
        intro i t' m' h1 h2
        exact h (i + 1) t' m' (by simpa using h1) (by simpa using h2)
      obtain ⟨out, hout⟩ := ih ms htail
      by_cases heq : m.length = t.length
      · exact ⟨m :: out, by simp [syncTarModel, copyData, heq, hout]⟩
      · rcases h0 with h0 | h0
        · exact absurd h0.symm heq
        · have h2 : ¬ (1 : ℕ) = t.length := by
            rw [← h0]
            exact heq
          exact ⟨List.replicate t.length (m.headD 0) :: out,
            by simp [syncTarModel, copyData, heq, h0, h2, hout]⟩

/-- Claim C5: when the two networks are structurally identical, a sync
makes every target parameter tensor equal to the corresponding online
tensor, by value: a subsequent replacement of the online parameters
leaves the synced target parameters unchanged. -/
theorem sync_tar_model_value_copy (p : Params)
    (h : List.Forall₂ (fun t m => t.length = m.length) p.target p.online) :
    ∃ p' : Params, syncStep p = .ok p' ∧
      p'.target = p.online ∧ p'.online = p.online ∧
      ∀ o : List (List ℚ), (onlineUpdate p' o).target = p.online ∧
        (onlineUpdate p' o).online = o := by
  refine ⟨{ online := p.online, target := p.online }, ?_, rfl, rfl, fun o => ⟨rfl, rfl⟩⟩
  rw [syncStep, syncTarModel_ok_of_forall₂ h]
  rfl

/-- Witness for C5 on a concrete two-tensor parameter pair. -/
theorem sync_tar_model_value_copy_witness :
    ∃ p' : Params,
      syncStep { online := [[1, 2], [3]], target := [[4, 5], [6]] } = .ok p' ∧
      p'.target = [[1, 2], [3]] ∧ p'.online = [[1, 2], [3]] ∧
      ∀ o : List (List ℚ),
        (onlineUpdate p' o).target = [[1, 2], [3]] ∧ (onlineUpdate p' o).online = o :=
  sync_tar_model_value_copy
    { online := [[1, 2], [3]], target := [[4, 5], [6]] }
    (List.Forall₂.cons rfl (List.Forall₂.cons rfl List.Forall₂.nil))

/-- Counterexample for claim C8: with mismatched parameter counts (target
has two tensors, online has one) the sync completes with `.ok` — `zip`
silently truncates — instead of raising. -/
theorem sync_mismatch_cex :
    (([[1, 2], [3]] : List (List ℚ)).length ≠ ([[5, 6]] : List (List ℚ)).length) ∧
    syncTarModel [[1, 2], [3]] [[5, 6]] = .ok [[5, 6], [3]] := by
  constructor
  · decide
  · rfl

/-- Claim C8 (amended): the sync raises only on a non-broadcastable
aligned pair of parameter tensors (sizes differ and the online tensor is
not a singleton).  Neither of the other mismatches raises: a mismatched
parameter count truncates silently (`zip` stops at the shorter list, the
sync completes, copying only the aligned prefix and leaving surplus
target parameters unchanged), and a singleton online tensor broadcasts
silently into a larger target tensor. -/
theorem sync_mismatch_amended :
    (∀ (i : ℕ) (tar model : List (List ℚ)) (t m : List ℚ),
      tar[i]? = some t → model[i]? = some m → t.length ≠ m.length →
      m.length ≠ 1 →
      ∃ msg, syncTarModel tar model = .error msg) ∧
    (∀ tar model : List (List ℚ),
      (∀ (i : ℕ) (t m : List ℚ), tar[i]? = some t → model[i]? = some m →
        t.length = m.length) →
      syncTarModel tar model =
        .ok (model.take tar.length ++ tar.drop model.length)) ∧
    (∀ tar model : List (List ℚ),
      (∀ (i : ℕ) (t m : List ℚ), tar[i]? = some t → model[i]? = some m →
        t.length = m.length ∨ m.length = 1) →
      ∃ out, syncTarModel tar model = .ok out) ∧
    syncTarModel [[1, 2], [3]] [[5, 6]] = .ok [[5, 6], [3]] ∧
    syncTarModel [[1, 2]] [[5]] = .ok [[5, 5]] :=
  ⟨syncTarModel_error_of_mismatch,
    fun tar model h => syncTarModel_ok_of_aligned tar model h,
    fun tar model h => syncTarModel_ok_of_broadcastable tar model h,
    rfl, rfl⟩

/-- Witness for the amended C8: a non-broadcastable aligned pair (target
size 2, online size 3) makes the sync raise. -/
theorem sync_mismatch_amended_witness :
    ∃ msg, syncTarModel [[1, 2], [3]] [[5, 6, 7]] = .error msg :=
  sync_mismatch_amended.1 0 [[1, 2], [3]] [[5, 6, 7]] [1, 2] [5, 6, 7]
    rfl rfl (by decide) (by decide)

/-! ### Helper lemmas about `_load_params` and ceiling division -/

theorem le_ceilDiv_mul {a p : ℕ} (hp : 0 < p) : a ≤ ceilDiv a p * p := by
  have h1 : p * ((a + p - 1) / p) + (a + p - 1) % p = a + p - 1 :=
    Nat.div_add_mod (a + p - 1) p
  have h2 : (a + p - 1) % p < p := Nat.mod_lt _ hp
  rw [ceilDiv, Nat.mul_comm]
  generalize hk : p * ((a + p - 1) / p) = k at h1 ⊢
  omega

theorem ceilDiv_le_of_le_mul {a p q : ℕ} (hp : 0 < p) (hq : a ≤ q * p) :
    ceilDiv a p ≤ q := by
  have h3 : a + p - 1 ≤ (p - 1) + q * p := by
    generalize q * p = k at hq ⊢
    omega
  rw [ceilDiv]
  calc (a + p - 1) / p ≤ ((p - 1) + q * p) / p := Nat.div_le_div_right h3
    _ = (p - 1) / p + q := Nat.add_mul_div_right _ _ hp
    _ = q := by rw [Nat.div_eq_of_lt (by omega)]; omega

/-- Counterexample for claim C9: with `exp_buffer_size = 4`,
`num_procs = 4` and `steps_per_iter = 10`, the buffer shard length is
`10`, not the ceiling division `1`: `_load_params` additionally raises
the shard length to at least `steps_per_iter`. -/
theorem load_params_cex :
    (loadParams 4 8 8 4 10).expBufferLength = 10 ∧ ceilDiv 4 4 = 1 ∧
    (loadParams 4 8 8 4 10).expBufferLength ≠ ceilDiv 4 4 := by
  refine ⟨rfl, rfl, ?_⟩
  decide

/-- Claim C9 (amended): the per-process batch size and initial sample
count equal the configured global values ceiling-divided by the process
count, and the buffer shard length equals the maximum of the
ceiling-divided buffer size and `steps_per_iter` (so it equals the
ceiling division exactly when that is at least `steps_per_iter`);
`ceilDiv` is the least `q` with `a ≤ q * num_procs`, i.e. division
rounded up. -/
theorem load_params_amended
    (bufferSize batchSize initSamples numProcs stepsPerIter : ℕ)
    (hp : 0 < numProcs) :
    (loadParams bufferSize batchSize initSamples numProcs stepsPerIter).batchSize =
      ceilDiv batchSize numProcs ∧
    (loadParams bufferSize batchSize initSamples numProcs stepsPerIter).initSamples =
      ceilDiv initSamples numProcs ∧
    (loadParams bufferSize batchSize initSamples numProcs stepsPerIter).expBufferLength =
      max (ceilDiv bufferSize numProcs) stepsPerIter ∧
    (stepsPerIter ≤ ceilDiv bufferSize numProcs →
      (loadParams bufferSize batchSize initSamples numProcs
        stepsPerIter).expBufferLength = ceilDiv bufferSize numProcs) ∧
    (∀ a : ℕ, a ≤ ceilDiv a numProcs * numProcs ∧
      ∀ q : ℕ, a ≤ q * numProcs → ceilDiv a numProcs ≤ q) := by
  refine ⟨rfl, rfl, rfl, ?_, ?_⟩
  · intro hle
    exact max_eq_left hle
  · intro a
    exact ⟨le_ceilDiv_mul hp, fun q hq => ceilDiv_le_of_le_mul hp hq⟩

/-- Witness for the amended C9 at a concrete configuration. -/
theorem load_params_amended_witness :
    (loadParams 100 32 64 4 10).batchSize = ceilDiv 32 4 :=
  (load_params_amended 100 32 64 4 10 (by decide)).1

end DQN
